import Mathlib

/-!
Verification of the peer agent messaging protocol layer of the
hedera-intel-agent repository: the chunk codec, the connection registry,
the message classifier, the intent resolver and the protocol router,
shallowly embedded from `src/hcs10.js` (OpenConvAIAgent),
`src/agent-protocol.js` (AgentProtocol) and `src/hedera.js` (HederaService).

Modelling conventions:
  - JavaScript strings are modelled as `List Char` (the sources only ever
    build and scan ASCII text, where UTF-16 length and UTF-8 byte length
    agree with list length);
  - `JSON.parse` and `JSON.stringify` of arbitrary values are external
    library collaborators and are abstracted as oracles (an already-parsed
    `Option Json`, and a serializer argument); the fixed-shape chunk
    framing that the code builds is embedded concretely;
  - stateful code is state passing over explicit structures; the Hedera
    transport is an infallible sink of published messages, recorded as a
    list of publish events; topic creation is a fresh-id counter;
  - fallible code (thrown JS exceptions) is `Except` with explicit
    try/catch folds exactly where the source has them;
  - `Date.now()` is a clock oracle `Nat → Nat` giving the reading at each
    successive call site.
-/

/-- JavaScript string as a character list. -/
def SL (s : String) : List Char := s.data

/-- ASCII lower-casing of one character (`String.prototype.toLowerCase`
restricted to the ASCII inputs the agent handles). -/
def lcChar (c : Char) : Char :=
  if 'A' ≤ c ∧ c ≤ 'Z' then Char.ofNat (c.toNat + 32) else c

/-- ASCII lower-casing of a string. -/
def lowerStr (s : List Char) : List Char := s.map lcChar

/-- `sub` is a prefix of `hay` (Boolean test). -/
def isPre : List Char → List Char → Bool
  | [], _ => true
  | _ :: _, [] => false
  | a :: as, b :: bs => a = b && isPre as bs

/-- `String.prototype.includes`: `sub` occurs contiguously in `hay`. -/
def incl (hay sub : List Char) : Bool :=
  hay.tails.any (fun t => isPre sub t)

/-- First index at which `sub` occurs in `hay`, if any. -/
def subPos (hay sub : List Char) : Option Nat :=
  (List.range (hay.length + 1)).find? (fun i => isPre sub (hay.drop i))

/-- Association-list lookup with the semantics of `Map.prototype.get`. -/
def mapGet {κ α : Type} [DecidableEq κ] : List (κ × α) → κ → Option α
  | [], _ => none
  | (k, v) :: t, k' => if k = k' then some v else mapGet t k'

/-- Association-list insert with the semantics of `Map.prototype.set`:
an existing key is updated in place, a new key is appended. -/
def mapSet {κ α : Type} [DecidableEq κ] : List (κ × α) → κ → α → List (κ × α)
  | [], k, v => [(k, v)]
  | (k0, v0) :: t, k, v =>
    if k0 = k then (k0, v) :: t else (k0, v0) :: mapSet t k v

/-- Association-list removal with the semantics of `Map.prototype.delete`. -/
def mapDel {κ α : Type} [DecidableEq κ] : List (κ × α) → κ → List (κ × α)
  | [], _ => []
  | (k0, v0) :: t, k =>
    if k0 = k then t else (k0, v0) :: mapDel t k

/-- Decimal digit character. -/
def digitCh (d : Nat) : Char := Char.ofNat (48 + d)

/-- Big-endian decimal digits of `n`, with `fuel` bounding the
recursion depth (any `fuel > n` is exact). -/
def natStrAux : Nat → Nat → List Char
  | 0, _ => []
  | fuel + 1, n =>
    if n = 0 then [] else natStrAux fuel (n / 10) ++ [digitCh (n % 10)]

/-- Decimal rendering of a natural number, as JavaScript template
interpolation and `JSON.stringify` print it. -/
def natStr (n : Nat) : List Char :=
  if n = 0 then ['0'] else natStrAux (n + 1) n

mutual
/-- JSON values as `JSON.parse` produces them, plus `undefinedJ` for the
JavaScript `undefined` that property access on a non-object yields.
Object fields and array elements use the mutual types `JProps`/`JList`. -/
inductive Json where
  | null
  | undefinedJ
  | bool (b : Bool)
  | num (n : Int)
  | str (s : List Char)
  | arr (xs : JList)
  | obj (fs : JProps)
inductive JList where
  | nil
  | cons (v : Json) (t : JList)
inductive JProps where
  | nil
  | cons (k : List Char) (v : Json) (t : JProps)
end

deriving instance DecidableEq for Json
deriving instance DecidableEq for JList
deriving instance DecidableEq for JProps

/-- Shorthand for a JSON string value. -/
def jstr (s : String) : Json := .str s.data

/-- Build a JSON object from a field list. -/
def jobj (fs : List (List Char × Json)) : Json :=
  .obj (fs.foldr (fun f t => .cons f.1 f.2 t) .nil)

/-- Field lookup in a JSON object body. -/
def JProps.get : JProps → List Char → Option Json
  | .nil, _ => none
  | .cons k0 v t, k => if k0 = k then some v else JProps.get t k

/-- Array body as a list. -/
def JList.toList : JList → List Json
  | .nil => []
  | .cons v t => v :: JList.toList t

/-- JavaScript property access `v.k`: throws a `TypeError` on `null` and
`undefined`, yields `undefined` on other non-objects and missing keys. -/
def getProp : Json → List Char → Except Unit Json
  | .null, _ => .error ()
  | .undefinedJ, _ => .error ()
  | .obj fs, k => .ok ((fs.get k).getD .undefinedJ)
  | _, _ => .ok .undefinedJ

/-- JavaScript truthiness of a value. -/
def truthy : Json → Bool
  | .null => false
  | .undefinedJ => false
  | .bool b => b
  | .num n => n ≠ 0
  | .str s => s ≠ []
  | .arr _ => true
  | .obj _ => true

/-- Short-circuit JavaScript `a || b` over fallible property accesses. -/
def jsOr (a b : Except Unit Json) : Except Unit Json := do
  let x ← a
  if truthy x then pure x else b

/-! ## Intent resolver and query router (`OpenConvAIAgent._processQuery`,
`OpenConvAIAgent._extractAssets`, src/hcs10.js lines 435-567) -/

/-- The five response shapes `_processQuery` can route to, identified by
the `type` field the source puts on the returned object. -/
inductive Intent where
  | price_check
  | narrative_detection
  | hedera_intelligence
  | capabilities
  | market_report
deriving DecidableEq, Repr

/-- Price-keyword test from the first `if` of `_processQuery`. -/
def priceHit (q : List Char) : Bool :=
  incl q (SL "price") || incl q (SL "how much") || incl q (SL "worth")

/-- Narrative-keyword test from the second `if` of `_processQuery`. -/
def narrHit (q : List Char) : Bool :=
  incl q (SL "narrative") || incl q (SL "trend") || incl q (SL "signal")

/-- Network-keyword test from the third `if` of `_processQuery`. -/
def hederaHit (q : List Char) : Bool :=
  incl q (SL "hedera") || incl q (SL "hbar") ||
  incl q (SL "network") || incl q (SL "health")

/-- Capability-keyword test from the fourth `if` of `_processQuery`. -/
def capHit (q : List Char) : Bool :=
  incl q (SL "capabilit") || incl q (SL "what can you") ||
  incl q (SL "help") || incl q (SL "who are you")

/-- The routing decision of `_processQuery` on the lower-cased query:
the source's `if`/`else if` chain, first match winning. -/
def intentOf (q : List Char) : Intent :=
  if priceHit q then .price_check
  else if narrHit q then .narrative_detection
  else if hederaHit q then .hedera_intelligence
  else if capHit q then .capabilities
  else .market_report

/-- The asset alias dictionary of `_extractAssets`, in the source's
(insertion-order) `Object.entries` iteration order. -/
def assetMap : List (List Char × List Char) :=
  [(SL "bitcoin", SL "BTC"), (SL "btc", SL "BTC"),
   (SL "ethereum", SL "ETH"), (SL "eth", SL "ETH"),
   (SL "solana", SL "SOL"), (SL "sol", SL "SOL"),
   (SL "hedera", SL "HBAR"), (SL "hbar", SL "HBAR"),
   (SL "avalanche", SL "AVAX"), (SL "avax", SL "AVAX"),
   (SL "near", SL "NEAR"),
   (SL "polkadot", SL "DOT"), (SL "dot", SL "DOT")]

/-- One step of the `_extractAssets` loop body: push the symbol if the
alias occurs in the query and the symbol was not already collected. -/
def extractStep (q : List Char) (acc : List (List Char))
    (e : List Char × List Char) : List (List Char) :=
  if incl q e.1 && !(acc.contains e.2) then acc ++ [e.2] else acc

/-- `OpenConvAIAgent._extractAssets`: scan the alias dictionary in order,
collect canonical symbols without duplicates, return `null` (`none`)
when nothing was found. -/
def extractAssets (q : List Char) : Option (List (List Char)) :=
  let found := assetMap.foldl (extractStep q) []
  if found.length > 0 then some found else none

/-- The default asset basket the callers of `_extractAssets` substitute
via `|| ["BTC","ETH","SOL","HBAR"]`. -/
def stdBasket : List (List Char) := [SL "BTC", SL "ETH", SL "SOL", SL "HBAR"]

/-- Market report returned by the Report Generator collaborator
(`intelEngine.generateReport`), black box per the design. -/
structure Report where
  summary : List Char
deriving DecidableEq, Repr

/-- Health snapshot returned by the Network Health Reporter collaborator
(`networkAnalytics.generateNetworkReport`), black box per the design. -/
structure NetReport where
  healthScore : Nat
deriving DecidableEq, Repr

/-- The two collaborator generators, as oracles that either return a
value or throw (carrying the JS error message). -/
structure Env where
  intelGen : List (List Char) → List Char → Except (List Char) Report
  netGen : Except (List Char) NetReport

/-- Response value built by `_processQuery`, keeping the `type` tag, the
asset list handed to the generator, and the collaborator results. -/
inductive QResp where
  | price_check (assets : List (List Char)) (r : Report)
  | narrative_detection (r : Report)
  | hedera_intelligence (nr : NetReport) (r : Report)
  | capabilities
  | market_report (assets : List (List Char)) (r : Report)
deriving DecidableEq, Repr

/-- `OpenConvAIAgent._processQuery`: lower-case a string query (anything
else becomes the empty query), route by `intentOf`, call the
collaborators, propagate their thrown errors. -/
def processQuery (env : Env) (queryText : Json) : Except (List Char) QResp :=
  let query : List Char := match queryText with
    | .str s => lowerStr s
    | _ => []
  match intentOf query with
  | .price_check => do
      let assets := (extractAssets query).getD stdBasket
      let r ← env.intelGen assets (SL "prices")
      pure (.price_check assets r)
  | .narrative_detection => do
      let r ← env.intelGen stdBasket (SL "narratives")
      pure (.narrative_detection r)
  | .hedera_intelligence => do
      let nr ← env.netGen
      let r ← env.intelGen [SL "HBAR"] (SL "hedera")
      pure (.hedera_intelligence nr r)
  | .capabilities => pure .capabilities
  | .market_report => do
      let assets := (extractAssets query).getD stdBasket
      let r ← env.intelGen assets (SL "general")
      pure (.market_report assets r)

/-! ## Chunk codec (`OpenConvAIAgent._publishOutbound` / `_publishChunked`,
src/hcs10.js lines 572-618; `HederaService._publishChunked`,
src/hedera.js lines 133-168) -/

/-- The fixed fragment payload size (`const chunkSize = 900`). -/
def chunkCap : Nat := 900

/-- The transport's per-message byte ceiling (HCS: 1024 bytes). -/
def hcsLimit : Nat := 1024

/-- `Math.ceil(message.length / chunkSize)`. -/
def totalChunksOf (msg : List Char) : Nat :=
  (msg.length + (chunkCap - 1)) / chunkCap

/-- `message.slice(i * chunkSize, (i + 1) * chunkSize)`. -/
def sliceAt (msg : List Char) (i : Nat) : List Char :=
  (msg.drop (i * chunkCap)).take chunkCap

/-- One fragment as `OpenConvAIAgent._publishChunked` builds it: the
`_chunk` metadata plus the payload slice.  `id` holds the numeric
`Date.now()` reading captured when this fragment was built. -/
structure Chunk where
  index : Nat
  total : Nat
  id : Nat
  data : List Char
deriving DecidableEq, Repr

/-- The fragment sequence of `OpenConvAIAgent._publishChunked`: loop
`i = 0 .. totalChunks - 1`, slicing the message and reading the clock
(`Date.now()`) once per iteration. -/
def publishChunkedFrags (clock : Nat → Nat) (msg : List Char) : List Chunk :=
  (List.range (totalChunksOf msg)).map
    (fun i => ⟨i, totalChunksOf msg, clock i, sliceAt msg i⟩)

/-- The fragment sequence of `HederaService._publishChunked`: identical
slicing, but the `_chunk` metadata carries no id at all. -/
def hederaChunkFrags (msg : List Char) : List (Nat × Nat × List Char) :=
  (List.range (totalChunksOf msg)).map
    (fun i => (i, totalChunksOf msg, sliceAt msg i))

/-- `JSON.stringify` escaping of one character inside a string literal. -/
def escChar (c : Char) : List Char :=
  if c = '\"' then ['\\', '\"']
  else if c = '\\' then ['\\', '\\']
  else if c = '\n' then ['\\', 'n']
  else if c = '\r' then ['\\', 'r']
  else if c = '\t' then ['\\', 't']
  else if c = '\x08' then ['\\', 'b']
  else if c = '\x0c' then ['\\', 'f']
  else if c.toNat < 32 then
    ['\\', 'u', '0', '0', digitCh (c.toNat / 16), digitCh (c.toNat % 16)]
  else [c]

/-- `JSON.stringify` body of a string (escaped, without the quotes). -/
def escStr (s : List Char) : List Char := s.flatMap escChar

/-- Framing text before the `index` value. -/
def frameA : List Char := SL "\x7b\"_chunk\":\x7b\"index\":"

/-- Framing text before the `total` value. -/
def frameB : List Char := SL ",\"total\":"

/-- Framing text before the `id` value. -/
def frameC : List Char := SL ",\"id\":\""

/-- Framing text between the `id` value and the `data` value. -/
def frameD : List Char := SL "\"\x7d,\"data\":\""

/-- Framing text after the `data` value. -/
def frameE : List Char := SL "\"\x7d"

/-- Framing text between `total` and `data` in the id-less
`HederaService` chunk envelope. -/
def frameF : List Char := SL "\x7d,\"data\":\""

/-- The framed chunk message
`JSON.stringify({ _chunk: { index, total, id }, data })` published by
`OpenConvAIAgent._publishChunked`. -/
def framedChunk (c : Chunk) : List Char :=
  frameA ++ natStr c.index ++ frameB ++ natStr c.total ++
  frameC ++ natStr c.id ++ frameD ++ escStr c.data ++ frameE

/-- The framed chunk message published by `HederaService._publishChunked`
(no id field). -/
def hederaFramedChunk (c : Nat × Nat × List Char) : List Char :=
  frameA ++ natStr c.1 ++ frameB ++ natStr c.2.1 ++
  frameF ++ escStr c.2.2 ++ frameE

/-- `OpenConvAIAgent._publishOutbound`'s size gate: a serialized message
of more than 1024 bytes goes through `_publishChunked`, anything else is
submitted as-is.  Returns the transport messages in publish order. -/
def publishOutboundMsgs (clock : Nat → Nat) (message : List Char) :
    List (List Char) :=
  if message.length > hcsLimit then
    (publishChunkedFrags clock message).map framedChunk
  else [message]

/-- Modelled from the spec: the repository has no reassembler — nothing
under src/ consumes `_chunk` fragments — so `ingest` is modelled from
spec §4.1: a buffer keyed by `messageId` holding fragments by `index`
(slots), returning the concatenated payload exactly when all `total`
fragments have been observed, clearing that buffer and ignoring further
fragments for a completed id; malformed fragments (index out of range)
are dropped. -/
structure ReState where
  buf : List (Nat × List (Option (List Char)))
  done : List Nat
deriving DecidableEq, Repr

/-- Modelled from the spec: reassembly state with empty buffers. -/
def emptyRe : ReState := ⟨[], []⟩

/-- Modelled from the spec: ingest one fragment (spec §4.1 `ingest`). -/
def ingest (s : ReState) (c : Chunk) : ReState × Option (List Char) :=
  if s.done.contains c.id then (s, none)
  else
    let slots := (mapGet s.buf c.id).getD (List.replicate c.total none)
    match slots[c.index]? with
    | none => (s, none)
    | some (some _) => (s, none)
    | some none =>
      let slots2 := slots.set c.index (some c.data)
      if slots2.all (fun o => o.isSome) then
        (⟨mapDel s.buf c.id, c.id :: s.done⟩,
         some ((slots2.map (fun o => o.getD [])).flatten))
      else (⟨mapSet s.buf c.id slots2, s.done⟩, none)

/-- Modelled from the spec: ingest a fragment arrival sequence, collecting
every reassembled payload that is returned along the way. -/
def ingestAll (s : ReState) : List Chunk → ReState × List (List Char)
  | [] => (s, [])
  | c :: t =>
    let (s1, out) := ingest s c
    let (s2, outs) := ingestAll s1 t
    (s2, (match out with | some m => [m] | none => []) ++ outs)

/-! ## Message classifier and protocol router
(`OpenConvAIAgent._handleInboundMessage` and the handlers it dispatches
to, src/hcs10.js lines 236-429) -/

/-- The protocol tag (`const PROTOCOL = "hcs-10"`). -/
def hcs10 : List Char := SL "hcs-10"

/-- First classifier condition of `_handleInboundMessage`:
`msg.p === PROTOCOL || msg.protocol === PROTOCOL` (may throw on `null`). -/
def protoCond (j : Json) : Except Unit Bool := do
  let p ← getProp j (SL "p")
  if p = .str hcs10 then pure true
  else do
    let pr ← getProp j (SL "protocol")
    pure (pr = .str hcs10)

/-- Second classifier condition of `_handleInboundMessage`:
`msg.type === "query" || msg.query` (may throw on `null`). -/
def queryCond (j : Json) : Except Unit Bool := do
  let t ← getProp j (SL "type")
  if t = jstr "query" then pure true
  else do
    let q ← getProp j (SL "query")
    pure (truthy q)

/-- The three shapes an inbound payload classifies to. -/
inductive Variant where
  | structured
  | direct
  | natural
deriving DecidableEq, Repr

/-- Classification of a parsed payload, with the condition evaluation's
possible `TypeError` surfaced (it is thrown inside the handler's `try`). -/
def classifyE (j : Json) : Except Unit Variant := do
  if (← protoCond j) then pure .structured
  else if (← queryCond j) then pure .direct
  else pure .natural

/-- Total classification of a raw inbound payload, `none` standing for a
`JSON.parse` failure: every parse failure and every condition-evaluation
throw is absorbed into natural-language handling, as the source's
`try`/`catch` does. -/
def classify (po : Option Json) : Variant :=
  match po with
  | none => .natural
  | some j =>
    match classifyE j with
    | .ok v => v
    | .error _ => .natural

/-- Per-peer registry entry (`this.connections.set(requesterId, {...})`):
the dedicated connection topic and the requester. -/
structure ConnInfo where
  topicId : Nat
  requester : Json
deriving DecidableEq

/-- Mutable agent state: the connection registry (`this.connections`,
keyed by the sender's `operator_id` value) and the fresh-topic counter
standing for `TopicCreateTransaction` allocation. -/
structure AgentSt where
  connections : List (Json × ConnInfo)
  nextTopic : Nat
deriving DecidableEq

/-- The agent state before any inbound message. -/
def initSt : AgentSt := ⟨[], 0⟩

/-- Publish events the router can emit. -/
inductive Pub where
  | connectionCreated (connTopic : Nat)
  | outbound (op : List Char) (resp : QResp)
  | connMsg (connTopic : Nat) (resp : QResp)
deriving DecidableEq, Repr

/-- Result of one handler run: the state after it, the messages it
published, and whether it returned normally or threw. -/
def HRun : Type := AgentSt × List Pub × Except (List Char) Unit

/-- `OpenConvAIAgent._handleConnectionRequest`: create a fresh connection
topic, record the connection under `msg.operator_id` (last request wins),
publish the `connection_created` acceptance on the inbound topic. -/
def handleConnectionRequest (j : Json) (st : AgentSt) : HRun :=
  match getProp j (SL "operator_id") with
  | .error _ => (st, [], .error (SL "TypeError"))
  | .ok rid =>
    let topic := st.nextTopic
    (⟨mapSet st.connections rid ⟨topic, rid⟩, st.nextTopic + 1⟩,
     [.connectionCreated topic], .ok ())

/-- `OpenConvAIAgent._handleNaturalLanguage`: route the raw text through
`_processQuery` and publish the response on the outbound topic; a
generator throw escapes (there is no `try` in this handler). -/
def handleNaturalLanguage (env : Env) (st : AgentSt) (text : List Char) :
    HRun :=
  match processQuery env (.str text) with
  | .error e => (st, [], .error e)
  | .ok resp => (st, [.outbound (SL "response") resp], .ok ())

/-- `OpenConvAIAgent._handleDirectQuery`: take `msg.queryType || msg.type`
as the query, route it through `_processQuery`, publish the response on
the outbound topic; a throw escapes to the inbound handler's `catch`. -/
def handleDirectQuery (env : Env) (j : Json) (st : AgentSt) : HRun :=
  match jsOr (getProp j (SL "queryType")) (getProp j (SL "type")) with
  | .error _ => (st, [], .error (SL "TypeError"))
  | .ok qt =>
    match processQuery env qt with
    | .error e => (st, [], .error e)
    | .ok resp => (st, [.outbound (SL "response") resp], .ok ())

/-- `OpenConvAIAgent._handleProtocolMessage`: dispatch on
`msg.op || msg.operation`; `connection_request` registers the peer,
`message` answers via `_processQuery` and `_sendResponse`,
`close_connection` deletes the registry entry, anything else is only
logged. -/
def handleProtocolMessage (env : Env) (j : Json) (st : AgentSt) : HRun :=
  match jsOr (getProp j (SL "op")) (getProp j (SL "operation")) with
  | .error _ => (st, [], .error (SL "TypeError"))
  | .ok op =>
    if op = jstr "connection_request" then handleConnectionRequest j st
    else if op = jstr "message" then
      match jsOr (getProp j (SL "data")) (getProp j (SL "m")) with
      | .error _ => (st, [], .error (SL "TypeError"))
      | .ok q =>
        match processQuery env q with
        | .error e => (st, [], .error e)
        | .ok resp => (st, [.outbound (SL "message") resp], .ok ())
    else if op = jstr "close_connection" then
      match getProp j (SL "operator_id") with
      | .error _ => (st, [], .error (SL "TypeError"))
      | .ok rid => (⟨mapDel st.connections rid, st.nextTopic⟩, [], .ok ())
    else (st, [], .ok ())

/-- The `try` body of `OpenConvAIAgent._handleInboundMessage`: parse,
classify and dispatch.  `text` is the raw UTF-8 content, `parsed` the
`JSON.parse` outcome (`none` when `JSON.parse` threw). -/
def inboundTry (env : Env) (text : List Char) (parsed : Option Json)
    (st : AgentSt) : HRun :=
  match parsed with
  | none => (st, [], .error (SL "SyntaxError"))
  | some j =>
    match classifyE j with
    | .error _ => (st, [], .error (SL "TypeError"))
    | .ok .structured => handleProtocolMessage env j st
    | .ok .direct => handleDirectQuery env j st
    | .ok .natural => handleNaturalLanguage env st text

/-- `OpenConvAIAgent._handleInboundMessage`, continued: the `try` body
with its `catch`, which runs `_handleNaturalLanguage(rawContent)` over
whatever state and publishes the `try` left behind; a throw out of the
catch handler escapes the per-message handler. -/
def handleInbound (env : Env) (text : List Char) (parsed : Option Json)
    (st : AgentSt) : HRun :=
  match inboundTry env text parsed st with
  | (st1, p1, .ok _) => (st1, p1, .ok ())
  | (st1, p1, .error _) =>
    let r := handleNaturalLanguage env st1 text
    (r.1, p1 ++ r.2.1, r.2.2)

/-- The listening loop: fold a stream of inbound messages through
`_handleInboundMessage`, threading the state (the subscription keeps the
state whether or not a handler threw). -/
def runInbound (env : Env) (st : AgentSt)
    (evts : List (List Char × Option Json)) : AgentSt :=
  evts.foldl (fun s e => (handleInbound env e.1 e.2 s).1) st

/-- `OpenConvAIAgent._handleConnectionMessage`: on a connection topic,
skip the agent's own messages (`msg.operator_id` equal to
`` `${inboundTopicId}@${accountId}` ``), otherwise answer
`msg.data || msg.m || JSON.stringify(msg)` via `_processQuery` on that
topic; its `catch` swallows every failure, publishing nothing.
`ser` abstracts `JSON.stringify`, `ownId` the agent's operator id. -/
def handleConnectionMessage (env : Env) (ser : Json → List Char)
    (ownId : List Char) (_text : List Char) (parsed : Option Json)
    (connTopic : Nat) : List Pub :=
  match parsed with
  | none => []
  | some j =>
    let body : Except Unit (Option Pub) := do
      let oid ← getProp j (SL "operator_id")
      if oid = .str ownId then pure none
      else do
        let q ← jsOr (getProp j (SL "data"))
          (jsOr (getProp j (SL "m")) (.ok (.str (ser j))))
        match processQuery env q with
        | .error _ => .error ()
        | .ok resp => pure (some (.connMsg connTopic resp))
    match body with
    | .ok (some p) => [p]
    | .ok none => []
    | .error _ => []

/-! ## AgentProtocol (`src/agent-protocol.js`) -/

/-- The protocol name (`const PROTOCOL_NAME = "hedera-intel"`). -/
def hederaIntel : List Char := SL "hedera-intel"

/-- The varying fields of a handler result object (`{ status: "ok", ... }`
or the error shapes); the constant `createMessage` wrapper fields
(protocol, version, timestamp, agent) are omitted. -/
structure RespMsg where
  status : List Char
  error : Option (List Char)
  queryType : Option (List Char)
deriving DecidableEq, Repr

/-- Asset list a default handler passes to the Report Generator:
`query.assets || dflt`, reading string entries of a JSON array. -/
def jsAssets (q : Json) (dflt : List (List Char)) : List (List Char) :=
  match getProp q (SL "assets") with
  | .error _ => dflt
  | .ok v =>
    if truthy v then
      match v with
      | .arr xs => xs.toList.filterMap
          (fun x => match x with | .str s => some s | _ => none)
      | _ => []
    else dflt

/-- The default handler table registered by
`AgentProtocol._registerDefaults`, each handler calling the Report
Generator and reporting `status: "ok"`. -/
def defaultHandlers (env : Env) :
    List (List Char × (Json → Except (List Char) RespMsg)) :=
  [(SL "market_report", fun q => do
      let _ ← env.intelGen (jsAssets q stdBasket) (SL "query")
      pure ⟨SL "ok", none, none⟩),
   (SL "price_check", fun q => do
      let _ ← env.intelGen (jsAssets q [SL "BTC", SL "ETH"]) (SL "prices")
      pure ⟨SL "ok", none, none⟩),
   (SL "capabilities", fun _ => pure ⟨SL "ok", none, none⟩),
   (SL "narrative_detection", fun _ => do
      let _ ← env.intelGen stdBasket (SL "narratives")
      pure ⟨SL "ok", none, none⟩)]

/-- The `try` body of `AgentProtocol.processMessage` on a parsed
message object: drop non-protocol messages and non-queries (returning
`null`), answer an unknown query type with an error-shaped response,
otherwise run the handler, whose thrown errors propagate as `.error`. -/
def procBody (env : Env) (msg : Json) : Except (List Char) (Option RespMsg) :=
  match getProp msg (SL "protocol") with
  | .error _ => .error (SL "TypeError")
  | .ok pv =>
    if pv ≠ .str hederaIntel then .ok none
    else
      match getProp msg (SL "type") with
      | .error _ => .error (SL "TypeError")
      | .ok tv =>
        if tv ≠ jstr "query" then .ok none
        else
          match jsOr (getProp msg (SL "queryType"))
              (getProp msg (SL "query_type")) with
          | .error _ => .error (SL "TypeError")
          | .ok qt =>
            match (match qt with
                   | .str s => (mapGet (defaultHandlers env) s).map
                       (fun h => (s, h))
                   | _ => none) with
            | none =>
              .ok (some ⟨SL "error", some (SL "Unknown query type"), none⟩)
            | some (s, h) =>
              match h msg with
              | .error e => .error e
              | .ok res => .ok (some ⟨res.status, res.error, some s⟩)

/-- The `try` body of `AgentProtocol.processMessage`: a string input is
parsed first (`JSON.parse` throwing on failure), an object input goes
straight to the protocol checks. -/
def procMsgTry (env : Env) (raw : (List Char × Option Json) ⊕ Json) :
    Except (List Char) (Option RespMsg) :=
  match raw with
  | .inl (_, none) => .error (SL "SyntaxError")
  | .inl (_, some j) => procBody env j
  | .inr j => procBody env j

/-- `AgentProtocol.processMessage`: the `try` body with its `catch`,
which converts any thrown error into an error-shaped response carrying
the failure reason. -/
def procMsg (env : Env) (raw : (List Char × Option Json) ⊕ Json) :
    Option RespMsg :=
  match procMsgTry env raw with
  | .ok r => r
  | .error e => some ⟨SL "error", some e, none⟩

/-! ## Concrete instances and specification-side helpers -/

/-- Collaborators that always succeed. -/
def okEnv : Env := ⟨fun _ _ => .ok ⟨SL "report"⟩, .ok ⟨90⟩⟩

/-- Collaborators that always throw with reason `e`. -/
def failEnv (e : List Char) : Env := ⟨fun _ _ => .error e, .error e⟩

/-- A `connection_request` protocol envelope from operator `x`. -/
def connReqMsg (x : Json) : Json :=
  jobj [(SL "p", jstr "hcs-10"), (SL "op", jstr "connection_request"),
        (SL "operator_id", x)]

/-- A `close_connection` protocol envelope from operator `x`. -/
def closeMsg (x : Json) : Json :=
  jobj [(SL "p", jstr "hcs-10"), (SL "op", jstr "close_connection"),
        (SL "operator_id", x)]

/-- Earliest index in `t` at which any alias of canonical symbol `sym`
occurs (specification-side, for the first-occurrence-order reading). -/
def firstOccIdx (t sym : List Char) : Option Nat :=
  ((assetMap.filter (fun e => e.2 = sym)).filterMap
    (fun e => subPos t e.1)).min?

/-- Specification-side reading of C7's ordering: adjacent symbols of the
extracted list appear in order of their first occurrence in the text. -/
def sortedByFirstOcc (t : List Char) (l : List (List Char)) : Bool :=
  (l.zip l.tail).all
    (fun p => (firstOccIdx t p.1).getD 0 ≤ (firstOccIdx t p.2).getD 0)

/-- Reassembly slots holding exactly the fragments with indices in `S`
(proof scaffolding for the chunk round-trip). -/
def mkSlots (msg : List Char) (n : Nat) (S : List Nat) :
    List (Option (List Char)) :=
  (List.range n).map
    (fun i => if S.contains i then some (sliceAt msg i) else none)

/-- Reassembly state in mid-flight for a single message id `t0` with the
index set `S` received so far (empty buffer before the first fragment). -/
def phaseASt (t0 : Nat) (msg : List Char) (n : Nat) (S : List Nat) :
    ReState :=
  ⟨if S = [] then [] else [(t0, mkSlots msg n S)], []⟩

/-- `msg.op || msg.operation`, the operation selector of
`_handleProtocolMessage`. -/
def opOfJ (j : Json) : Except Unit Json :=
  jsOr (getProp j (SL "op")) (getProp j (SL "operation"))

/-- `msg.data || msg.m`, the query payload selector of the `message`
case of `_handleProtocolMessage`. -/
def payloadOfJ (j : Json) : Except Unit Json :=
  jsOr (getProp j (SL "data")) (getProp j (SL "m"))

/-- Concrete inbound `message` envelope whose query text asks for a
price (used to exercise a failing Report Generator). -/
def c1msg : Json :=
  jobj [(SL "p", jstr "hcs-10"), (SL "op", jstr "message"),
        (SL "operator_id", jstr "0.0.1@0.0.2"),
        (SL "data", jstr "price of btc")]

/-- The raw wire text of `c1msg` (what `rawContent` holds when `c1msg`
is the parse result). -/
def c1text : List Char :=
  SL "\x7b\"p\":\"hcs-10\",\"op\":\"message\",\"operator_id\":\"0.0.1@0.0.2\",\"data\":\"price of btc\"\x7d"

/-- An oversized serialized message consisting of 1100 quote characters
(every one of which `JSON.stringify` escapes to two bytes). -/
def quoteMsg : List Char := List.replicate 1100 '\"'

/-- An oversized serialized message of 1100 unescaped characters. -/
def plainMsg : List Char := List.replicate 1100 'a'

/-! ## Helper lemmas -/

theorem mapGet_none_iff {κ α : Type} [DecidableEq κ] (l : List (κ × α))
    (k : κ) : mapGet l k = none ↔ k ∉ l.map Prod.fst := by
  induction l with
  | nil => simp [mapGet]
  | cons h t ih =>
    obtain ⟨k0, v0⟩ := h
    by_cases hk : k0 = k
    · simp [mapGet, hk]
    · simp [mapGet, hk, ih, Ne.symm hk]

theorem mapGet_mapSet_self {κ α : Type} [DecidableEq κ] (l : List (κ × α))
    (k : κ) (v : α) : mapGet (mapSet l k v) k = some v := by
  induction l with
  | nil => simp [mapSet, mapGet]
  | cons h t ih =>
    obtain ⟨k0, v0⟩ := h
    by_cases hk : k0 = k
    · simp [mapSet, mapGet, hk]
    · simp [mapSet, mapGet, hk, ih]

theorem mapSet_keys_mem {κ α : Type} [DecidableEq κ] (l : List (κ × α))
    (k : κ) (v : α) (x : κ) :
    x ∈ (mapSet l k v).map Prod.fst → x = k ∨ x ∈ l.map Prod.fst := by
  induction l with
  | nil =>
    intro hx
    simp only [mapSet, List.map_cons, List.map_nil, List.mem_singleton] at hx
    exact Or.inl hx
  | cons e t ih =>
    obtain ⟨k0, v0⟩ := e
    intro hx
    by_cases hk : k0 = k
    · simp only [mapSet, if_pos hk, List.map_cons, List.mem_cons] at hx
      rcases hx with hx | hx
      · exact Or.inr (List.mem_cons.mpr (Or.inl hx))
      · exact Or.inr (List.mem_cons.mpr (Or.inr hx))
    · simp only [mapSet, if_neg hk, List.map_cons, List.mem_cons] at hx
      rcases hx with hx | hx
      · exact Or.inr (List.mem_cons.mpr (Or.inl hx))
      · rcases ih hx with h2 | h2
        · exact Or.inl h2
        · exact Or.inr (List.mem_cons.mpr (Or.inr h2))

theorem mapSet_keys_nodup {κ α : Type} [DecidableEq κ] (l : List (κ × α))
    (k : κ) (v : α) (h : (l.map Prod.fst).Nodup) :
    ((mapSet l k v).map Prod.fst).Nodup := by
  induction l with
  | nil => simp [mapSet]
  | cons e t ih =>
    obtain ⟨k0, v0⟩ := e
    simp only [List.map_cons, List.nodup_cons] at h
    by_cases hk : k0 = k
    · simp only [mapSet, if_pos hk, List.map_cons, List.nodup_cons]
      exact h
    · simp only [mapSet, if_neg hk, List.map_cons, List.nodup_cons]
      refine ⟨fun hx => ?_, ih h.2⟩
      rcases mapSet_keys_mem t k v k0 hx with h2 | h2
      · exact hk h2
      · exact h.1 h2

theorem mapDel_keys_sublist {κ α : Type} [DecidableEq κ] (l : List (κ × α))
    (k : κ) : ((mapDel l k).map Prod.fst).Sublist (l.map Prod.fst) := by
  induction l with
  | nil => simp [mapDel]
  | cons e t ih =>
    obtain ⟨k0, v0⟩ := e
    by_cases hk : k0 = k
    · simp [mapDel, hk]
    · simp [mapDel, hk]
      exact ih

theorem mapDel_absent {κ α : Type} [DecidableEq κ] (l : List (κ × α))
    (k : κ) (h : mapGet l k = none) : mapDel l k = l := by
  induction l with
  | nil => simp [mapDel]
  | cons e t ih =>
    obtain ⟨k0, v0⟩ := e
    by_cases hk : k0 = k
    · simp [mapGet, hk] at h
    · simp [mapGet, hk] at h
      simp [mapDel, hk, ih h]

theorem mapGet_mapDel_self {κ α : Type} [DecidableEq κ] (l : List (κ × α))
    (k : κ) (h : (l.map Prod.fst).Nodup) : mapGet (mapDel l k) k = none := by
  induction l with
  | nil => simp [mapDel, mapGet]
  | cons e t ih =>
    obtain ⟨k0, v0⟩ := e
    simp only [List.map_cons, List.nodup_cons] at h
    by_cases hk : k0 = k
    · simp only [mapDel, if_pos hk]
      rw [mapGet_none_iff]
      exact hk ▸ h.1
    · simp only [mapDel, if_neg hk, mapGet]
      exact ih h.2

theorem keys_count_mapSet {κ α : Type} [DecidableEq κ] (l : List (κ × α))
    (k : κ) (v : α) (h : (l.map Prod.fst).Nodup) :
    ((mapSet l k v).map Prod.fst).count k = 1 := by
  induction l with
  | nil => simp [mapSet]
  | cons e t ih =>
    obtain ⟨k0, v0⟩ := e
    simp only [List.map_cons, List.nodup_cons] at h
    by_cases hk : k0 = k
    · simp only [mapSet, if_pos hk, List.map_cons, List.count_cons]
      rw [List.count_eq_zero_of_not_mem (hk ▸ h.1)]
      simp [hk]
    · simp only [mapSet, if_neg hk, List.map_cons, List.count_cons, ih h.2]
      simp [hk]

theorem handleNaturalLanguage_state (env : Env) (st : AgentSt)
    (text : List Char) : (handleNaturalLanguage env st text).1 = st := by
  unfold handleNaturalLanguage
  split <;> rfl

theorem handleDirectQuery_state (env : Env) (j : Json) (st : AgentSt) :
    (handleDirectQuery env j st).1 = st := by
  unfold handleDirectQuery
  split
  · rfl
  · split <;> rfl

theorem handleProtocolMessage_state (env : Env) (j : Json) (st : AgentSt) :
    (handleProtocolMessage env j st).1.connections = st.connections
    ∨ (∃ rid, (handleProtocolMessage env j st).1.connections
        = mapSet st.connections rid ⟨st.nextTopic, rid⟩)
    ∨ (∃ rid, (handleProtocolMessage env j st).1.connections
        = mapDel st.connections rid) := by
  unfold handleProtocolMessage handleConnectionRequest
  split
  · exact Or.inl rfl
  · split
    · split
      · exact Or.inl rfl
      · exact Or.inr (Or.inl ⟨_, rfl⟩)
    · split
      · split
        · exact Or.inl rfl
        · split
          · exact Or.inl rfl
          · exact Or.inl rfl
      · split
        · split
          · exact Or.inl rfl
          · exact Or.inr (Or.inr ⟨_, rfl⟩)
        · exact Or.inl rfl


theorem handleInbound_fst (env : Env) (text : List Char)
    (parsed : Option Json) (st : AgentSt) :
    (handleInbound env text parsed st).1 = (inboundTry env text parsed st).1 := by
  unfold handleInbound
  rcases htr : inboundTry env text parsed st with ⟨st1, p1, r⟩
  cases r <;> simp [handleNaturalLanguage_state]

theorem inboundTry_state (env : Env) (text : List Char)
    (parsed : Option Json) (st : AgentSt) :
    (inboundTry env text parsed st).1.connections = st.connections
    ∨ (∃ rid, (inboundTry env text parsed st).1.connections
        = mapSet st.connections rid ⟨st.nextTopic, rid⟩)
    ∨ (∃ rid, (inboundTry env text parsed st).1.connections
        = mapDel st.connections rid) := by
  unfold inboundTry
  cases parsed with
  | none => exact Or.inl rfl
  | some j =>
    cases hc : classifyE j with
    | error e =>
      left
      simp [hc]
    | ok v =>
      cases v with
      | structured =>
        simp only [hc]
        exact handleProtocolMessage_state env j st
      | direct =>
        simp only [hc]
        exact Or.inl (by rw [handleDirectQuery_state])
      | natural =>
        simp only [hc]
        exact Or.inl (by rw [handleNaturalLanguage_state])

theorem handleInbound_connections (env : Env) (text : List Char)
    (parsed : Option Json) (st : AgentSt) :
    (handleInbound env text parsed st).1.connections = st.connections
    ∨ (∃ rid, (handleInbound env text parsed st).1.connections
        = mapSet st.connections rid ⟨st.nextTopic, rid⟩)
    ∨ (∃ rid, (handleInbound env text parsed st).1.connections
        = mapDel st.connections rid) := by
  rw [handleInbound_fst]
  exact inboundTry_state env text parsed st

theorem handleInbound_keys_nodup (env : Env) (text : List Char)
    (parsed : Option Json) (st : AgentSt)
    (h : (st.connections.map Prod.fst).Nodup) :
    (((handleInbound env text parsed st).1.connections).map Prod.fst).Nodup := by
  rcases handleInbound_connections env text parsed st with hc | ⟨rid, hc⟩ | ⟨rid, hc⟩
  · rw [hc]; exact h
  · rw [hc]; exact mapSet_keys_nodup _ _ _ h
  · rw [hc]; exact (mapDel_keys_sublist _ _).nodup h

theorem runInbound_keys_nodup (env : Env)
    (evts : List (List Char × Option Json)) (st : AgentSt)
    (h : (st.connections.map Prod.fst).Nodup) :
    (((runInbound env st evts).connections).map Prod.fst).Nodup := by
  induction evts generalizing st with
  | nil => exact h
  | cons e t ih =>
    unfold runInbound
    simp only [List.foldl_cons]
    exact ih _ (handleInbound_keys_nodup env e.1 e.2 st h)

theorem inbound_connReq (env : Env) (st : AgentSt) (text : List Char)
    (j : Json) (rid : Json)
    (hc : classifyE j = .ok .structured)
    (hop : opOfJ j = .ok (jstr "connection_request"))
    (hrid : getProp j (SL "operator_id") = .ok rid) :
    handleInbound env text (some j) st =
      (⟨mapSet st.connections rid ⟨st.nextTopic, rid⟩, st.nextTopic + 1⟩,
       [.connectionCreated st.nextTopic], .ok ()) := by
  unfold opOfJ at hop
  unfold handleInbound inboundTry handleProtocolMessage handleConnectionRequest
  simp only [hc, hop, hrid]
  simp

theorem inbound_close (env : Env) (st : AgentSt) (text : List Char)
    (j : Json) (rid : Json)
    (hc : classifyE j = .ok .structured)
    (hop : opOfJ j = .ok (jstr "close_connection"))
    (hrid : getProp j (SL "operator_id") = .ok rid) :
    handleInbound env text (some j) st =
      (⟨mapDel st.connections rid, st.nextTopic⟩, [], .ok ()) := by
  unfold opOfJ at hop
  unfold handleInbound inboundTry handleProtocolMessage
  simp only [hc, hop, hrid]
  simp [jstr, SL]

theorem inbound_unknown_op (env : Env) (st : AgentSt) (text : List Char)
    (j : Json) (v : Json)
    (hc : classifyE j = .ok .structured)
    (hop : opOfJ j = .ok v)
    (h1 : v ≠ jstr "connection_request")
    (h2 : v ≠ jstr "message")
    (h3 : v ≠ jstr "close_connection") :
    handleInbound env text (some j) st = (st, [], .ok ()) := by
  unfold opOfJ at hop
  unfold handleInbound inboundTry handleProtocolMessage
  simp only [hc, hop]
  rw [if_neg h1, if_neg h2, if_neg h3]

theorem hpm_message_state (env : Env) (st : AgentSt) (j : Json)
    (hop : opOfJ j = .ok (jstr "message")) :
    (handleProtocolMessage env j st).1 = st := by
  unfold opOfJ at hop
  unfold handleProtocolMessage
  simp only [hop]
  simp [jstr, SL]
  split
  · rfl
  · split <;> rfl

theorem inbound_nonstructured_connections (env : Env) (text : List Char)
    (j : Json) (st : AgentSt) (hc : classifyE j ≠ .ok .structured) :
    (handleInbound env text (some j) st).1.connections = st.connections := by
  rw [handleInbound_fst]
  unfold inboundTry
  cases hcc : classifyE j with
  | error e => simp [hcc]
  | ok v =>
    cases v with
    | structured => exact absurd hcc hc
    | direct => simp [hcc, handleDirectQuery_state]
    | natural => simp [hcc, handleNaturalLanguage_state]

/-! ## Claim theorems -/

/-- C4: the connection registry holds at most one entry per
`peerOperatorId` at every reachable state; entries are created only by a
`connection_request` (as a `mapSet`, last request wins, leaving exactly
one entry for that peer) and removed only by an explicit
`close_connection` (as a `mapDel`); every other inbound message leaves
the registry untouched. -/
theorem c4_registry_invariant :
    (∀ (env : Env) (evts : List (List Char × Option Json)),
      (((runInbound env initSt evts).connections).map Prod.fst).Nodup)
  ∧ (∀ (env : Env) (st : AgentSt) (text : List Char) (j rid : Json),
      classifyE j = .ok .structured →
      opOfJ j = .ok (jstr "connection_request") →
      getProp j (SL "operator_id") = .ok rid →
      (handleInbound env text (some j) st).1.connections
        = mapSet st.connections rid ⟨st.nextTopic, rid⟩
      ∧ mapGet (handleInbound env text (some j) st).1.connections rid
          = some ⟨st.nextTopic, rid⟩
      ∧ ((st.connections.map Prod.fst).Nodup →
          (((handleInbound env text (some j) st).1.connections).map
            Prod.fst).count rid = 1))
  ∧ (∀ (env : Env) (st : AgentSt) (text : List Char) (j rid : Json),
      classifyE j = .ok .structured →
      opOfJ j = .ok (jstr "close_connection") →
      getProp j (SL "operator_id") = .ok rid →
      (handleInbound env text (some j) st).1.connections
        = mapDel st.connections rid)
  ∧ (∀ (env : Env) (st : AgentSt) (text : List Char) (j v : Json),
      classifyE j = .ok .structured →
      opOfJ j = .ok v → v ≠ jstr "connection_request" →
      v ≠ jstr "close_connection" →
      (handleInbound env text (some j) st).1.connections = st.connections)
  ∧ (∀ (env : Env) (st : AgentSt) (text : List Char) (j : Json),
      classifyE j ≠ .ok .structured →
      (handleInbound env text (some j) st).1.connections = st.connections)
  ∧ (∀ (env : Env) (st : AgentSt) (text : List Char),
      (handleInbound env text none st).1.connections = st.connections) := by
  refine ⟨?_, ?_, ?_, ?_, ?_, ?_⟩
  · intro env evts
    exact runInbound_keys_nodup env evts initSt (by simp [initSt])
  · intro env st text j rid hc hop hrid
    rw [inbound_connReq env st text j rid hc hop hrid]
    refine ⟨rfl, mapGet_mapSet_self _ _ _, fun hnd => ?_⟩
    exact keys_count_mapSet _ _ _ hnd
  · intro env st text j rid hc hop hrid
    rw [inbound_close env st text j rid hc hop hrid]
  · intro env st text j v hc hop h1 h3
    by_cases h2 : v = jstr "message"
    · subst h2
      rw [handleInbound_fst]
      unfold inboundTry
      simp only [hc]
      exact congrArg AgentSt.connections (hpm_message_state env st j hop)
    · rw [inbound_unknown_op env st text j v hc hop h1 h2 h3]
  · intro env st text j hc
    exact inbound_nonstructured_connections env text j st hc
  · intro env st text
    rw [handleInbound_fst]
    rfl

theorem c4_registry_invariant_witness :
    (handleInbound okEnv (SL "t") (some (connReqMsg (jstr "peerA")))
      initSt).1.connections
      = mapSet initSt.connections (jstr "peerA")
          ⟨initSt.nextTopic, jstr "peerA"⟩ :=
  (c4_registry_invariant.2.1 okEnv initSt (SL "t") (connReqMsg (jstr "peerA"))
    (jstr "peerA") rfl rfl rfl).1

/-- C5: a `connection_request` from peer X followed by a
`close_connection` from X leaves no registry entry for X; a subsequent
`connection_request` from X succeeds and records a fresh connection
topic distinct from the closed one; and `close_connection` for a peer
with no entry is a no-op that raises no error and changes nothing. -/
theorem c5_connection_lifecycle (env : Env) (st : AgentSt) (x : Json)
    (t1 t2 t3 : List Char)
    (hnd : (st.connections.map Prod.fst).Nodup) :
    mapGet ((handleInbound env t2 (some (closeMsg x))
        (handleInbound env t1 (some (connReqMsg x)) st).1).1).connections
      x = none
    ∧ mapGet ((handleInbound env t3 (some (connReqMsg x))
        (handleInbound env t2 (some (closeMsg x))
          (handleInbound env t1 (some (connReqMsg x)) st).1).1).1).connections
      x = some ⟨st.nextTopic + 1, x⟩
    ∧ st.nextTopic + 1 ≠ st.nextTopic
    ∧ (∀ (st0 : AgentSt) (y : Json), mapGet st0.connections y = none →
        handleInbound env t2 (some (closeMsg y)) st0 = (st0, [], .ok ())) := by
  have hreq : ∀ (t : List Char) (s : AgentSt),
      handleInbound env t (some (connReqMsg x)) s =
        (⟨mapSet s.connections x ⟨s.nextTopic, x⟩, s.nextTopic + 1⟩,
         [.connectionCreated s.nextTopic], .ok ()) := by
    intro t s
    exact inbound_connReq env s t (connReqMsg x) x rfl rfl rfl
  have hcl : ∀ (t : List Char) (s : AgentSt),
      handleInbound env t (some (closeMsg x)) s =
        (⟨mapDel s.connections x, s.nextTopic⟩, [], .ok ()) := by
    intro t s
    exact inbound_close env s t (closeMsg x) x rfl rfl rfl
  refine ⟨?_, ?_, by omega, ?_⟩
  · rw [hreq, hcl]
    exact mapGet_mapDel_self _ _ (mapSet_keys_nodup _ _ _ hnd)
  · rw [hreq, hcl, hreq]
    exact mapGet_mapSet_self _ _ _
  · intro st0 y hy
    have : handleInbound env t2 (some (closeMsg y)) st0 =
        (⟨mapDel st0.connections y, st0.nextTopic⟩, [], .ok ()) :=
      inbound_close env st0 t2 (closeMsg y) y rfl rfl rfl
    rw [this, mapDel_absent _ _ hy]

theorem c5_connection_lifecycle_witness :
    mapGet ((handleInbound okEnv (SL "b") (some (closeMsg (jstr "peerX")))
        (handleInbound okEnv (SL "a") (some (connReqMsg (jstr "peerX")))
          initSt).1).1).connections (jstr "peerX") = none :=
  (c5_connection_lifecycle okEnv initSt (jstr "peerX") (SL "a") (SL "b")
    (SL "c") (by simp [initSt])).1

/-- C9: a structured protocol envelope whose operation is none of
`connection_request`, `message`, `close_connection` is handled by
publishing nothing, raising nothing and leaving the registry unchanged. -/
theorem c9_unknown_operation (env : Env) (st : AgentSt) (text : List Char)
    (j v : Json)
    (hc : classifyE j = .ok .structured)
    (hop : opOfJ j = .ok v)
    (h1 : v ≠ jstr "connection_request")
    (h2 : v ≠ jstr "message")
    (h3 : v ≠ jstr "close_connection") :
    handleInbound env text (some j) st = (st, [], .ok ()) :=
  inbound_unknown_op env st text j v hc hop h1 h2 h3

theorem c9_unknown_operation_witness :
    handleInbound okEnv (SL "x")
      (some (jobj [(SL "p", jstr "hcs-10"), (SL "op", jstr "bogus")]))
      initSt = (initSt, [], .ok ()) :=
  c9_unknown_operation okEnv initSt (SL "x")
    (jobj [(SL "p", jstr "hcs-10"), (SL "op", jstr "bogus")])
    (jstr "bogus") rfl rfl (by decide) (by decide) (by decide)

/-- C6: `_processQuery` routes the lower-cased text through a fixed
priority order with the first match winning — price keywords first
(`price_check`), then trend/narrative keywords (`narrative_detection`),
then network/health keywords (`hedera_intelligence`), then
capability/help keywords (`capabilities`), defaulting to the full market
report; in particular any text with both a price and a narrative keyword
resolves to `price_check`. -/
theorem c6_intent_priority (t : List Char) :
    (priceHit (lowerStr t) = true →
      intentOf (lowerStr t) = .price_check)
  ∧ (priceHit (lowerStr t) = false → narrHit (lowerStr t) = true →
      intentOf (lowerStr t) = .narrative_detection)
  ∧ (priceHit (lowerStr t) = false → narrHit (lowerStr t) = false →
      hederaHit (lowerStr t) = true →
      intentOf (lowerStr t) = .hedera_intelligence)
  ∧ (priceHit (lowerStr t) = false → narrHit (lowerStr t) = false →
      hederaHit (lowerStr t) = false → capHit (lowerStr t) = true →
      intentOf (lowerStr t) = .capabilities)
  ∧ (priceHit (lowerStr t) = false → narrHit (lowerStr t) = false →
      hederaHit (lowerStr t) = false → capHit (lowerStr t) = false →
      intentOf (lowerStr t) = .market_report)
  ∧ (priceHit (lowerStr t) = true → narrHit (lowerStr t) = true →
      intentOf (lowerStr t) = .price_check)
  ∧ (∀ (env : Env) (r : Except (List Char) QResp),
      processQuery env (.str t) = r →
      intentOf (lowerStr t) = .capabilities → r = .ok .capabilities) := by
  refine ⟨?_, ?_, ?_, ?_, ?_, ?_, ?_⟩ <;>
    intros <;> simp_all [intentOf, processQuery]
  simp_all [pure, Except.pure]

theorem c6_intent_priority_witness :
    intentOf (lowerStr (SL "price trend please")) = Intent.price_check :=
  (c6_intent_priority (SL "price trend please")).2.2.2.2.2.1
    (by decide) (by decide)

/-- C8: classification of an inbound payload is total — every parse
outcome is assigned exactly one of the three variants (structured
envelope, direct query, natural language), and a thrown condition
evaluation (for example on a parsed `null`) degrades to natural
language rather than escaping the classifier. -/
theorem c8_classifier_total (po : Option Json) :
    ([Variant.structured, Variant.direct, Variant.natural].count
      (classify po) = 1)
  ∧ (∀ (j : Json) (e : Unit), classifyE j = .error e →
      classify (some j) = .natural) := by
  constructor
  · cases h : classify po <;> decide
  · intro j e hj
    simp [classify, hj]

theorem c8_classifier_total_witness :
    classify (some Json.null) = Variant.natural :=
  (c8_classifier_total (some Json.null)).2 Json.null () rfl

/-- C1 counterexample: with a Report Generator that always throws, the
protocol `message` envelope `c1msg` (query "price of btc") makes the
OpenConvAI per-message handler escape with the generator's exception —
after the catch retried the raw content as natural language and the
generator threw again — and nothing (in particular no error-shaped
response) is published; so the handler does not terminate normally. -/
theorem c1_fault_containment_cex :
    handleInbound (failEnv (SL "boom")) c1text (some c1msg) initSt
      = (initSt, [], .error (SL "boom")) := by rfl

/-- C1 amended: in the AgentProtocol listener a failing handler call is
caught by `processMessage` and converted to an error-shaped response
(`status = "error"` with the failure reason), terminating normally; in
the OpenConvAI router, a generator failure while handling a protocol
`message` produces no error-shaped response — the inbound catch re-runs
the raw content as a natural-language query, and when that second
generator call also fails the exception escapes the per-message
handler with nothing published. -/
theorem c1_fault_containment :
    (∀ (env : Env) (msg : Json) (qt : List Char)
      (h : Json → Except (List Char) RespMsg) (e : List Char),
      getProp msg (SL "protocol") = .ok (.str hederaIntel) →
      getProp msg (SL "type") = .ok (jstr "query") →
      jsOr (getProp msg (SL "queryType")) (getProp msg (SL "query_type"))
        = .ok (.str qt) →
      mapGet (defaultHandlers env) qt = some h →
      h msg = .error e →
      procMsg env (.inr msg) = some ⟨SL "error", some e, none⟩)
  ∧ (∀ (env : Env) (st : AgentSt) (text : List Char) (j q : Json)
      (e : List Char),
      classifyE j = .ok .structured →
      opOfJ j = .ok (jstr "message") →
      payloadOfJ j = .ok q →
      processQuery env q = .error e →
      handleInbound env text (some j) st = handleNaturalLanguage env st text)
  ∧ (∀ (env : Env) (st : AgentSt) (text : List Char) (j q : Json)
      (e e2 : List Char),
      classifyE j = .ok .structured →
      opOfJ j = .ok (jstr "message") →
      payloadOfJ j = .ok q →
      processQuery env q = .error e →
      processQuery env (.str text) = .error e2 →
      handleInbound env text (some j) st = (st, [], .error e2)) := by
  have hmsgcase : ∀ (env : Env) (st : AgentSt) (text : List Char)
      (j q : Json) (e : List Char),
      classifyE j = .ok .structured →
      opOfJ j = .ok (jstr "message") →
      payloadOfJ j = .ok q →
      processQuery env q = .error e →
      handleInbound env text (some j) st
        = handleNaturalLanguage env st text := by
    intro env st text j q e hc hop hq hfail
    unfold opOfJ at hop
    unfold payloadOfJ at hq
    unfold handleInbound inboundTry handleProtocolMessage
    simp only [hc, hop, hq, hfail]
    simp [jstr, SL]
  refine ⟨?_, hmsgcase, ?_⟩
  · intro env msg qt h e hp ht hqt hh hmsg
    unfold procMsg procMsgTry procBody
    simp only [hp, ht, hqt, hh, hmsg]
    simp [jstr, hederaIntel]
    simp [hmsg]
  · intro env st text j q e e2 hc hop hq hfail hfail2
    rw [hmsgcase env st text j q e hc hop hq hfail]
    unfold handleNaturalLanguage
    simp only [hfail2]

theorem c1_fault_containment_witness :
    procMsg (failEnv (SL "boom"))
      (.inr (jobj [(SL "protocol", jstr "hedera-intel"),
        (SL "type", jstr "query"),
        (SL "queryType", jstr "market_report")]))
      = some ⟨SL "error", some (SL "boom"), none⟩ :=
  c1_fault_containment.1 (failEnv (SL "boom"))
    (jobj [(SL "protocol", jstr "hedera-intel"),
      (SL "type", jstr "query"), (SL "queryType", jstr "market_report")])
    (SL "market_report") _ (SL "boom") rfl rfl rfl rfl rfl

theorem getProp_ok (msg : Json) (k : List Char) (h1 : msg ≠ .null)
    (h2 : msg ≠ .undefinedJ) : ∃ v, getProp msg k = .ok v := by
  cases msg with
  | null => exact absurd rfl h1
  | undefinedJ => exact absurd rfl h2
  | bool b => exact ⟨_, rfl⟩
  | num n => exact ⟨_, rfl⟩
  | str s => exact ⟨_, rfl⟩
  | arr xs => exact ⟨_, rfl⟩
  | obj fs => exact ⟨_, rfl⟩

/-- C10 counterexample: an inbound string that is not JSON — thus a
message without `type = "query"` — makes `processMessage` return an
error-shaped response rather than `null`, so the listener publishes a
response for it. -/
theorem c10_no_self_response_cex :
    procMsg okEnv (.inl (SL "hello", none))
      = some ⟨SL "error", some (SL "SyntaxError"), none⟩ := by rfl

/-- C10 amended: on a connection topic every parsed message whose
`operator_id` equals the agent's own operator id is skipped without
publishing anything; and `processMessage` returns `null` for every
parsed message (not `null`/`undefined` itself) whose `type` is not
`"query"` — which covers the agent's own `response` and `heartbeat`
messages — while unparseable raw input instead yields an error-shaped
response. -/
theorem c10_no_self_response :
    (∀ (env : Env) (ser : Json → List Char) (ownId text : List Char)
      (j : Json) (ct : Nat),
      getProp j (SL "operator_id") = .ok (.str ownId) →
      handleConnectionMessage env ser ownId text (some j) ct = [])
  ∧ (∀ (env : Env) (msg : Json), msg ≠ .null → msg ≠ .undefinedJ →
      getProp msg (SL "type") ≠ .ok (jstr "query") →
      procMsg env (.inr msg) = none) := by
  constructor
  · intro env ser ownId text j ct hoid
    simp [handleConnectionMessage, hoid, bind, Except.bind, pure, Except.pure]
  · intro env msg h1 h2 hty
    obtain ⟨pv, hpv⟩ := getProp_ok msg (SL "protocol") h1 h2
    obtain ⟨tv, htv⟩ := getProp_ok msg (SL "type") h1 h2
    unfold procMsg procMsgTry procBody
    simp only [hpv, htv]
    by_cases hp : pv = .str hederaIntel
    · have htq : tv ≠ jstr "query" := by
        intro hcon
        exact hty (hcon ▸ htv)
      simp [hp, htq]
    · simp [hp]

theorem c10_no_self_response_witness :
    procMsg okEnv (.inr (jobj [(SL "protocol", jstr "hedera-intel"),
      (SL "type", jstr "heartbeat")])) = none :=
  c10_no_self_response.2 okEnv
    (jobj [(SL "protocol", jstr "hedera-intel"),
      (SL "type", jstr "heartbeat")])
    (by decide) (by decide) (by intro h; simp [getProp, jobj, JProps.get, SL, jstr] at h)

theorem extractStep_mem (q : List Char) (acc : List (List Char))
    (e : List Char × List Char) (s : List Char) :
    s ∈ extractStep q acc e ↔ s ∈ acc ∨ (incl q e.1 = true ∧ s = e.2) := by
  unfold extractStep
  by_cases h1 : incl q e.1 = true
  · by_cases h2 : acc.contains e.2 = true
    · have h2m : e.2 ∈ acc := by simpa using h2
      rw [if_neg (by simp [h1, h2m])]
      constructor
      · exact fun h => Or.inl h
      · rintro (h | ⟨-, rfl⟩)
        · exact h
        · exact h2m
    · have h2m : e.2 ∉ acc := by simpa using h2
      rw [if_pos (by simp [h1, h2m])]
      simp [List.mem_append, h1]
  · simp [h1]

theorem extract_foldl_mem (q : List Char)
    (tbl : List (List Char × List Char)) (acc : List (List Char))
    (s : List Char) :
    s ∈ tbl.foldl (extractStep q) acc ↔
      s ∈ acc ∨ ∃ e ∈ tbl, e.2 = s ∧ incl q e.1 = true := by
  induction tbl generalizing acc with
  | nil => simp
  | cons e t ih =>
    simp only [List.foldl_cons]
    rw [ih, extractStep_mem]
    constructor
    · rintro ((h | ⟨hi, rfl⟩) | ⟨e2, he2, rfl, hi⟩)
      · exact Or.inl h
      · exact Or.inr ⟨e, List.mem_cons_self e t, rfl, hi⟩
      · exact Or.inr ⟨e2, List.mem_cons_of_mem e he2, rfl, hi⟩
    · rintro (h | ⟨e2, he2, rfl, hi⟩)
      · exact Or.inl (Or.inl h)
      · rcases List.mem_cons.mp he2 with rfl | he2t
        · exact Or.inl (Or.inr ⟨hi, rfl⟩)
        · exact Or.inr ⟨e2, he2t, rfl, hi⟩

theorem extract_foldl_struct (q : List Char)
    (tbl : List (List Char × List Char)) (acc : List (List Char))
    (hacc : acc.Nodup) :
    ∃ r, tbl.foldl (extractStep q) acc = acc ++ r
      ∧ r.Sublist (tbl.map Prod.snd) ∧ r.Nodup ∧ ∀ s ∈ r, s ∉ acc := by
  induction tbl generalizing acc with
  | nil => exact ⟨[], by simp, by simp, by simp, by simp⟩
  | cons e t ih =>
    simp only [List.foldl_cons, List.map_cons]
    by_cases h1 : incl q e.1 = true
    · by_cases h2 : acc.contains e.2 = true
      · have h2m : e.2 ∈ acc := by simpa using h2
        have hstep : extractStep q acc e = acc := by
          unfold extractStep
          simp [h1, h2m]
        rw [hstep]
        obtain ⟨r, hr1, hr2, hr3, hr4⟩ := ih acc hacc
        exact ⟨r, hr1, hr2.cons _, hr3, hr4⟩
      · have hne : e.2 ∉ acc := by simpa using h2
        have hstep : extractStep q acc e = acc ++ [e.2] := by
          unfold extractStep
          simp [h1, hne]
        rw [hstep]
        have hacc2 : (acc ++ [e.2]).Nodup := by
          simp [List.nodup_append, hacc, hne]
        obtain ⟨r, hr1, hr2, hr3, hr4⟩ := ih (acc ++ [e.2]) hacc2
        refine ⟨e.2 :: r, ?_, hr2.cons₂ _, ?_, ?_⟩
        · rw [hr1]
          simp
        · refine List.nodup_cons.mpr ⟨fun hc => ?_, hr3⟩
          exact hr4 e.2 hc (by simp)
        · intro s hs
          rcases List.mem_cons.mp hs with rfl | hs2
          · exact hne
          · intro hsa
            exact hr4 s hs2 (by simp [hsa])
    · have hstep : extractStep q acc e = acc := by
        unfold extractStep
        simp [h1]
      rw [hstep]
      obtain ⟨r, hr1, hr2, hr3, hr4⟩ := ih acc hacc
      exact ⟨r, hr1, hr2.cons _, hr3, hr4⟩

/-- C7 counterexample: extraction from "price of ethereum and bitcoin"
yields `["BTC", "ETH"]` — the fixed dictionary order of the alias table —
although ETH's alias occurs first in the text (index 9 versus 22), so
the collected symbols are not ordered by first occurrence in the text. -/
theorem c7_asset_extraction_cex :
    extractAssets (SL "price of ethereum and bitcoin")
      = some [SL "BTC", SL "ETH"]
    ∧ sortedByFirstOcc (SL "price of ethereum and bitcoin")
        [SL "BTC", SL "ETH"] = false := by
  exact ⟨by rfl, by rfl⟩

/-- C7 amended: asset extraction collects exactly the canonical symbols
whose aliases occur in the text, deduplicated, in the fixed order of the
alias dictionary (a sublist of the table's symbol column, not
first-occurrence order); "price of bitcoin and ethereum" yields exactly
`["BTC","ETH"]`; a text with no alias yields `null` (`none`), the
default basket being substituted by the caller (`_processQuery`), as the
concluding `market_report` run over `stdBasket` shows. -/
theorem c7_asset_extraction :
    extractAssets (SL "price of bitcoin and ethereum")
      = some [SL "BTC", SL "ETH"]
  ∧ extractAssets (SL "give me a report") = none
  ∧ (∀ (q : List Char) (l : List (List Char)), extractAssets q = some l →
      l ≠ [] ∧ l.Nodup ∧ l.Sublist (assetMap.map Prod.snd)
      ∧ (∀ s, s ∈ l ↔ ∃ e ∈ assetMap, e.2 = s ∧ incl q e.1 = true))
  ∧ (∀ q : List Char, extractAssets q = none ↔
      ∀ e ∈ assetMap, incl q e.1 = false)
  ∧ processQuery okEnv (jstr "give me a report")
      = .ok (.market_report stdBasket ⟨SL "report"⟩) := by
  refine ⟨by rfl, by rfl, ?_, ?_, by rfl⟩
  · intro q l hl
    unfold extractAssets at hl
    by_cases hlen : (assetMap.foldl (extractStep q) []).length > 0
    · rw [if_pos hlen] at hl
      have hl2 : l = assetMap.foldl (extractStep q) [] :=
        (Option.some_inj.mp hl).symm
      obtain ⟨r, hr1, hr2, hr3, -⟩ :=
        extract_foldl_struct q assetMap [] (by simp)
      rw [List.nil_append] at hr1
      refine ⟨?_, ?_, ?_, ?_⟩
      · rw [hl2]
        intro hnil
        rw [hnil] at hlen
        simp at hlen
      · rw [hl2, hr1]
        exact hr3
      · rw [hl2, hr1]
        exact hr2
      · intro s
        rw [hl2]
        simpa using extract_foldl_mem q assetMap [] s
    · rw [if_neg hlen] at hl
      exact absurd hl (by simp)
  · intro q
    unfold extractAssets
    constructor
    · intro hnone e he
      by_cases hlen : (assetMap.foldl (extractStep q) []).length > 0
      · rw [if_pos hlen] at hnone
        exact absurd hnone (by simp)
      · have hempty : assetMap.foldl (extractStep q) [] = [] := by
          cases hfe : assetMap.foldl (extractStep q) [] with
          | nil => rfl
          | cons a t =>
            rw [hfe] at hlen
            simp at hlen
        by_contra hinc
        have hmem : e.2 ∈ assetMap.foldl (extractStep q) [] := by
          rw [extract_foldl_mem]
          exact Or.inr ⟨e, he, rfl, by simpa using hinc⟩
        rw [hempty] at hmem
        simp at hmem
    · intro hall
      have hempty : assetMap.foldl (extractStep q) [] = [] := by
        rw [List.eq_nil_iff_forall_not_mem]
        intro s hs
        rw [extract_foldl_mem] at hs
        rcases hs with hs | ⟨e, he, -, hi⟩
        · simp at hs
        · rw [hall e he] at hi
          exact Bool.false_ne_true hi
      rw [hempty]
      simp

theorem c7_asset_extraction_witness :
    [SL "HBAR"] ≠ ([] : List (List Char)) ∧ ([SL "HBAR"] : List (List Char)).Nodup
    ∧ ([SL "HBAR"] : List (List Char)).Sublist (assetMap.map Prod.snd)
    ∧ (∀ s, s ∈ ([SL "HBAR"] : List (List Char)) ↔
        ∃ e ∈ assetMap, e.2 = s ∧ incl (SL "hbar") e.1 = true) :=
  c7_asset_extraction.2.2.1 (SL "hbar") [SL "HBAR"] (by rfl)

theorem slices_flatten (msg : List Char) (k : Nat) :
    ((List.range k).map (fun i => sliceAt msg i)).flatten
      = msg.take (k * chunkCap) := by
  induction k with
  | zero => simp
  | succ k ih =>
    rw [List.range_succ, List.map_append, List.flatten_append, ih]
    simp only [List.map_cons, List.map_nil, List.flatten_cons,
      List.flatten_nil, List.append_nil, sliceAt]
    rw [Nat.succ_mul, List.take_add]

theorem len_le_cap_mul (msg : List Char) :
    msg.length ≤ totalChunksOf msg * chunkCap := by
  unfold totalChunksOf chunkCap
  omega

theorem chunks_flatten (clock : Nat → Nat) (msg : List Char) :
    ((publishChunkedFrags clock msg).map Chunk.data).flatten = msg := by
  have h1 : (publishChunkedFrags clock msg).map Chunk.data
      = (List.range (totalChunksOf msg)).map (fun i => sliceAt msg i) := by
    simp [publishChunkedFrags, List.map_map]
  rw [h1, slices_flatten]
  exact List.take_of_length_le (len_le_cap_mul msg)

theorem natStrAux_len_le (fuel n k : Nat) (h : n < 10 ^ k) :
    (natStrAux fuel n).length ≤ k := by
  induction fuel generalizing n k with
  | zero => simp [natStrAux]
  | succ fuel ih =>
    unfold natStrAux
    by_cases h0 : n = 0
    · simp [h0]
    · rw [if_neg h0]
      have hk : 1 ≤ k := by
        by_contra hcon
        have hk0 : k = 0 := by omega
        rw [hk0] at h
        simp at h
        omega
      have hdiv : n / 10 < 10 ^ (k - 1) := by
        have hpow : 10 ^ k = 10 * 10 ^ (k - 1) := by
          conv =>
            lhs
            rw [show k = 1 + (k - 1) by omega]
          rw [pow_add, pow_one]
        rw [hpow] at h
        omega
      have := ih (n / 10) (k - 1) hdiv
      simp only [List.length_append, List.length_cons, List.length_nil]
      omega

theorem natStr_len_le (n k : Nat) (hk : 1 ≤ k) (h : n < 10 ^ k) :
    (natStr n).length ≤ k := by
  unfold natStr
  by_cases h0 : n = 0
  · simpa [h0] using hk
  · rw [if_neg h0]
    exact natStrAux_len_le (n + 1) n k h

theorem escStr_id (s : List Char) (h : ∀ ch ∈ s, escChar ch = [ch]) :
    escStr s = s := by
  unfold escStr
  induction s with
  | nil => rfl
  | cons c t ih =>
    rw [List.flatMap_cons, h c (by simp),
      ih (fun ch hch => h ch (List.mem_cons_of_mem c hch))]
    rfl

theorem framedChunk_length (c : Chunk) :
    (framedChunk c).length =
      48 + (natStr c.index).length + (natStr c.total).length
        + (natStr c.id).length + (escStr c.data).length := by
  have ha : frameA.length = 19 := by rfl
  have hb : frameB.length = 9 := by rfl
  have hc : frameC.length = 7 := by rfl
  have hd : frameD.length = 11 := by rfl
  have he : frameE.length = 2 := by rfl
  unfold framedChunk
  simp [List.length_append, ha, hb, hc, hd, he]
  omega

theorem escStr_length_replicate (n : Nat) (c : Char) :
    (escStr (List.replicate n c)).length = n * (escChar c).length := by
  induction n with
  | zero => simp [escStr]
  | succ n ih =>
    rw [List.replicate_succ]
    unfold escStr at ih ⊢
    rw [List.flatMap_cons, List.length_append, ih]
    ring

theorem quoteMsg_length : quoteMsg.length = 1100 := by
  unfold quoteMsg
  rw [List.length_replicate]

theorem quoteMsg_chunks : totalChunksOf quoteMsg = 2 := by
  unfold totalChunksOf chunkCap
  rw [quoteMsg_length]

theorem quoteMsg_frag_len :
    ∀ c ∈ publishChunkedFrags (fun i => i) quoteMsg,
      c.index = 0 → 1024 < (framedChunk c).length := by
  intro c hc hidx
  rw [framedChunk_length]
  simp only [publishChunkedFrags, quoteMsg_chunks, List.mem_map,
    List.mem_range] at hc
  obtain ⟨i, hi, rfl⟩ := hc
  simp only at hidx
  subst hidx
  have hdata : Chunk.data ⟨0, 2, (fun i => i) 0, sliceAt quoteMsg 0⟩
      = List.replicate 900 '\"' := by
    show sliceAt quoteMsg 0 = List.replicate 900 '\"'
    unfold sliceAt chunkCap quoteMsg
    rw [Nat.zero_mul, List.drop_zero, List.take_replicate]
    norm_num
  rw [hdata, escStr_length_replicate]
  have h2 : (escChar '\"').length = 2 := by rfl
  have h0 : (natStr 0).length = 1 := by rfl
  have h1 : (natStr 2).length = 1 := by rfl
  rw [h2]
  simp only [h0, h1]
  norm_num

/-- C3 counterexample: for the 1100-quote serialized message, the two
fragments produced by `_publishChunked` under a clock that advances
between iterations carry different ids (`Date.now()` is read inside the
loop, so there is no shared fresh messageId), and the first framed
fragment message is 1851 bytes — `JSON.stringify` escaping of the data
blows past the 1024-byte transport ceiling. -/
theorem c3_chunk_encoding_cex :
    (∃ c1 ∈ publishChunkedFrags (fun i => i) quoteMsg,
      ∃ c2 ∈ publishChunkedFrags (fun i => i) quoteMsg, ¬ c1.id = c2.id)
    ∧ ∃ m ∈ publishOutboundMsgs (fun i => i) quoteMsg, 1024 < m.length := by
  have hfr : publishChunkedFrags (fun i => i) quoteMsg =
      [⟨0, 2, 0, sliceAt quoteMsg 0⟩, ⟨1, 2, 1, sliceAt quoteMsg 1⟩] := by
    unfold publishChunkedFrags
    rw [quoteMsg_chunks]
    rfl
  constructor
  · refine ⟨⟨0, 2, 0, sliceAt quoteMsg 0⟩, ?_, ⟨1, 2, 1, sliceAt quoteMsg 1⟩,
      ?_, by simp⟩
    · rw [hfr]
      simp
    · rw [hfr]
      simp
  · have hgate : quoteMsg.length > hcsLimit := by
      rw [quoteMsg_length]
      norm_num [hcsLimit]
    refine ⟨framedChunk ⟨0, 2, 0, sliceAt quoteMsg 0⟩, ?_, ?_⟩
    · unfold publishOutboundMsgs
      rw [if_pos hgate, hfr]
      simp
    · exact quoteMsg_frag_len ⟨0, 2, 0, sliceAt quoteMsg 0⟩
        (by rw [hfr]; simp) rfl

/-- C3 amended: a serialized message is published unfragmented exactly
when its length is at most the 1024-byte ceiling; otherwise it is split
into exactly `ceil(length / 900)` fragments whose `total` is the
fragment count, whose `index` lies in `0..total-1`, whose `data` is at
most 900 bytes, and whose concatenation in index order is the original
message; each fragment's id is the clock reading of its own loop
iteration (`Date.now()` per fragment — fragments share an id only when
the clock does not advance), the `HederaService` variant emits the same
fragments with no id at all, and each framed fragment stays within the
1024-byte ceiling provided the payload needs no JSON escaping, the
payload is at most 810000 bytes and clock readings are below `10^13`. -/
theorem c3_chunk_encoding (clock : Nat → Nat) (msg : List Char) :
    (msg.length ≤ 1024 → publishOutboundMsgs clock msg = [msg])
  ∧ (1024 < msg.length →
      (publishChunkedFrags clock msg).length = totalChunksOf msg
      ∧ chunkCap * (totalChunksOf msg - 1) < msg.length
      ∧ msg.length ≤ chunkCap * totalChunksOf msg
      ∧ (∀ c ∈ publishChunkedFrags clock msg,
          c.total = totalChunksOf msg ∧ c.index < totalChunksOf msg
          ∧ c.id = clock c.index ∧ c.data.length ≤ chunkCap)
      ∧ ((publishChunkedFrags clock msg).map Chunk.data).flatten = msg
      ∧ hederaChunkFrags msg = (publishChunkedFrags clock msg).map
          (fun c => (c.index, c.total, c.data))
      ∧ ((∀ ch ∈ msg, escChar ch = [ch]) → msg.length ≤ 810000 →
          (∀ i, i < totalChunksOf msg → clock i < 10 ^ 13) →
          ∀ m ∈ publishOutboundMsgs clock msg, m.length ≤ 1024)) := by
  constructor
  · intro hle
    unfold publishOutboundMsgs hcsLimit
    rw [if_neg (by omega)]
  · intro hgt
    have hmem : ∀ c ∈ publishChunkedFrags clock msg,
        ∃ i, i < totalChunksOf msg
          ∧ c = ⟨i, totalChunksOf msg, clock i, sliceAt msg i⟩ := by
      intro c hc
      simp only [publishChunkedFrags, List.mem_map, List.mem_range] at hc
      obtain ⟨i, hi, rfl⟩ := hc
      exact ⟨i, hi, rfl⟩
    refine ⟨?_, ?_, ?_, ?_, chunks_flatten clock msg, ?_, ?_⟩
    · simp [publishChunkedFrags]
    · unfold totalChunksOf chunkCap
      omega
    · unfold totalChunksOf chunkCap
      omega
    · intro c hc
      obtain ⟨i, hi, rfl⟩ := hmem c hc
      refine ⟨rfl, hi, rfl, ?_⟩
      simp only [sliceAt]
      rw [List.length_take]
      exact min_le_left _ _
    · unfold hederaChunkFrags publishChunkedFrags
      rw [List.map_map]
      rfl
    · intro hesc hsz hclock m hm
      unfold publishOutboundMsgs hcsLimit at hm
      rw [if_pos (by omega)] at hm
      rw [List.mem_map] at hm
      obtain ⟨c, hc, rfl⟩ := hm
      obtain ⟨i, hi, rfl⟩ := hmem c hc
      rw [framedChunk_length]
      have htot : totalChunksOf msg ≤ 900 := by
        unfold totalChunksOf chunkCap
        omega
      have hidx : (natStr i).length ≤ 3 := by
        refine natStr_len_le i 3 (by norm_num) ?_
        calc i < totalChunksOf msg := hi
          _ ≤ 900 := htot
          _ < 10 ^ 3 := by norm_num
      have htotl : (natStr (totalChunksOf msg)).length ≤ 3 := by
        refine natStr_len_le _ 3 (by norm_num) ?_
        calc totalChunksOf msg ≤ 900 := htot
          _ < 10 ^ 3 := by norm_num
      have hidl : (natStr (clock i)).length ≤ 13 :=
        natStr_len_le _ 13 (by norm_num) (hclock i hi)
      have hdl : (escStr (sliceAt msg i)).length ≤ 900 := by
        have hsub : ∀ ch ∈ sliceAt msg i, ch ∈ msg := by
          intro ch hch
          simp only [sliceAt] at hch
          exact List.drop_subset _ _ (List.take_subset _ _ hch)
        rw [escStr_id _ (fun ch hch => hesc ch (hsub ch hch))]
        simp only [sliceAt]
        rw [List.length_take]
        exact le_trans (min_le_left _ _) (by norm_num [chunkCap])
      simp only
      omega

theorem c3_chunk_encoding_witness :
    (∀ m ∈ publishOutboundMsgs (fun _ => 5) plainMsg, m.length ≤ 1024)
    ∧ publishOutboundMsgs (fun _ => 5) (SL "small") = [SL "small"] := by
  have hlen : plainMsg.length = 1100 := by
    unfold plainMsg
    rw [List.length_replicate]
  constructor
  · refine ((c3_chunk_encoding (fun _ => 5) plainMsg).2
      (by rw [hlen]; norm_num)).2.2.2.2.2.2 ?_ ?_ ?_
    · intro ch hch
      unfold plainMsg at hch
      rw [List.eq_of_mem_replicate hch]
      rfl
    · rw [hlen]
      norm_num
    · intro i hi
      norm_num
  · exact (c3_chunk_encoding (fun _ => 5) (SL "small")).1 (by norm_num [SL])

theorem mkSlots_nil (msg : List Char) (n : Nat) :
    mkSlots msg n [] = List.replicate n none := by
  unfold mkSlots
  have h : ∀ i ∈ List.range n,
      (if ([] : List Nat).contains i then some (sliceAt msg i) else none)
        = (none : Option (List Char)) := by
    intro i hi
    rfl
  rw [List.map_congr_left h, List.map_const', List.length_range]

theorem mkSlots_length (msg : List Char) (n : Nat) (S : List Nat) :
    (mkSlots msg n S).length = n := by
  simp [mkSlots]

theorem mkSlots_get (msg : List Char) (n : Nat) (S : List Nat) (j : Nat)
    (hj : j < n) :
    (mkSlots msg n S)[j]? =
      some (if S.contains j then some (sliceAt msg j) else none) := by
  unfold mkSlots
  rw [List.getElem?_map, List.getElem?_range hj]
  rfl

theorem mkSlots_set (msg : List Char) (n : Nat) (S : List Nat) (j : Nat) :
    (mkSlots msg n S).set j (some (sliceAt msg j)) = mkSlots msg n (j :: S) := by
  refine List.ext_getElem (by simp [mkSlots]) ?_
  intro i hi1 hi2
  have hin : i < n := by simpa [mkSlots] using hi2
  rw [List.getElem_set]
  unfold mkSlots
  rw [List.getElem_map, List.getElem_range, List.getElem_map, List.getElem_range]
  by_cases hij : j = i
  · subst hij
    simp [List.contains_cons]
  · rw [if_neg hij]
    have : (j :: S).contains i = S.contains i := by
      simp [List.contains_cons]
      intro hcon
      exact absurd hcon.symm hij
    rw [this]

theorem mkSlots_all (msg : List Char) (n : Nat) (S : List Nat) :
    ((mkSlots msg n S).all (fun o => o.isSome) = true) ↔
      ∀ i, i < n → S.contains i = true := by
  unfold mkSlots
  rw [List.all_eq_true]
  constructor
  · intro h i hi
    have := h (if S.contains i then some (sliceAt msg i) else none)
      (List.mem_map.mpr ⟨i, List.mem_range.mpr hi, rfl⟩)
    by_cases hc : S.contains i = true
    · exact hc
    · rw [if_neg (by simpa using hc)] at this
      simp at this
  · intro h o ho
    rw [List.mem_map] at ho
    obtain ⟨i, hi, rfl⟩ := ho
    rw [if_pos (h i (List.mem_range.mp hi))]
    rfl

theorem mkSlots_full_flatten (msg : List Char) (S : List Nat)
    (hfull : ∀ i, i < totalChunksOf msg → S.contains i = true) :
    (((mkSlots msg (totalChunksOf msg) S).map (fun o => o.getD [])).flatten)
      = msg := by
  have hmap : (mkSlots msg (totalChunksOf msg) S).map (fun o => o.getD [])
      = (List.range (totalChunksOf msg)).map (fun i => sliceAt msg i) := by
    unfold mkSlots
    rw [List.map_map]
    refine List.map_congr_left ?_
    intro i hi
    rw [List.mem_range] at hi
    have him : i ∈ S := by simpa using hfull i hi
    simp [him]
  rw [hmap, slices_flatten]
  exact List.take_of_length_le (len_le_cap_mul msg)

theorem ingest_phaseA (t0 : Nat) (msg : List Char) (n : Nat) (S : List Nat)
    (j : Nat) (hj : j < n) :
    ingest (phaseASt t0 msg n S) ⟨j, n, t0, sliceAt msg j⟩ =
      (if S.contains j then (phaseASt t0 msg n S, none)
      else if (mkSlots msg n (j :: S)).all (fun o => o.isSome) then
        (⟨[], [t0]⟩,
         some (((mkSlots msg n (j :: S)).map (fun o => o.getD [])).flatten))
      else (phaseASt t0 msg n (j :: S), none)) := by
  have hbuf : (mapGet (phaseASt t0 msg n S).buf t0).getD
      (List.replicate n none) = mkSlots msg n S := by
    unfold phaseASt
    by_cases hS : S = []
    · rw [if_pos hS, hS, mkSlots_nil]
      rfl
    · rw [if_neg hS]
      simp [mapGet]
  have hdone : (phaseASt t0 msg n S).done = [] := rfl
  have hdel : mapDel (phaseASt t0 msg n S).buf t0 = [] := by
    unfold phaseASt
    by_cases hS : S = []
    · rw [if_pos hS]
      rfl
    · rw [if_neg hS]
      simp [mapDel]
  have hset : mapSet (phaseASt t0 msg n S).buf t0 (mkSlots msg n (j :: S))
      = [(t0, mkSlots msg n (j :: S))] := by
    unfold phaseASt
    by_cases hS : S = []
    · rw [if_pos hS]
      rfl
    · rw [if_neg hS]
      simp [mapSet]
  have hA2 : phaseASt t0 msg n (j :: S) = ⟨[(t0, mkSlots msg n (j :: S))], []⟩ := by
    unfold phaseASt
    rw [if_neg (by simp)]
  unfold ingest
  simp only [hdone, hbuf, hdel, hset]
  rw [mkSlots_get msg n S j hj]
  simp only [List.contains, List.elem, Bool.false_eq_true, if_false]
  by_cases hSj : S.contains j = true
  · rw [if_pos hSj, if_pos hSj]
  · rw [if_neg hSj, if_neg hSj]
    rw [mkSlots_set msg n S j, hA2]
    simp only [hset]

theorem ingest_done (t0 : Nat) (l : List Chunk)
    (hl : ∀ c ∈ l, c.id = t0) :
    ingestAll ⟨[], [t0]⟩ l = (⟨[], [t0]⟩, []) := by
  induction l with
  | nil => rfl
  | cons c t ih =>
    unfold ingestAll
    have hstep : ingest ⟨[], [t0]⟩ c = (⟨[], [t0]⟩, none) := by
      unfold ingest
      rw [if_pos]
      show (ReState.done ⟨[], [t0]⟩).contains c.id = true
      rw [hl c (List.mem_cons_self c t)]
      simp [List.contains_cons]
    rw [hstep]
    simp only [ih (fun c2 hc2 => hl c2 (List.mem_cons_of_mem c hc2))]
    rfl

theorem contains_cons_self (j : Nat) (S : List Nat) :
    (j :: S).contains j = true := by
  simp [List.contains_cons]

theorem contains_cons_of (j i : Nat) (S : List Nat)
    (h : S.contains i = true) : (j :: S).contains i = true := by
  simp [List.contains_cons]
  simp at h
  exact Or.inr h

theorem ingest_run (msg : List Char) (t0 : Nat) (l : List Chunk)
    (S : List Nat)
    (hl : ∀ c ∈ l, ∃ i, i < totalChunksOf msg
      ∧ c = ⟨i, totalChunksOf msg, t0, sliceAt msg i⟩)
    (hnf : ∃ i, i < totalChunksOf msg ∧ ¬ S.contains i = true)
    (hcov : ∀ i, i < totalChunksOf msg →
      S.contains i = true ∨ ∃ c ∈ l, c.index = i) :
    ingestAll (phaseASt t0 msg (totalChunksOf msg) S) l
      = (⟨[], [t0]⟩, [msg]) := by
  revert hl hnf hcov
  induction l generalizing S with
  | nil =>
    intro hl hnf hcov
    obtain ⟨i, hi, hnc⟩ := hnf
    rcases hcov i hi with h | ⟨c, hc, -⟩
    · exact absurd h hnc
    · exact absurd hc (List.not_mem_nil c)
  | cons c t ih =>
    intro hl hnf hcov
    obtain ⟨j, hj, rfl⟩ := hl _ (List.mem_cons_self c t)
    unfold ingestAll
    rw [ingest_phaseA t0 msg (totalChunksOf msg) S j hj]
    by_cases hSj : S.contains j = true
    · rw [if_pos hSj]
      have hcov2 : ∀ i, i < totalChunksOf msg →
          S.contains i = true ∨ ∃ c2 ∈ t, c2.index = i := by
        intro i hi
        rcases hcov i hi with h | ⟨c2, hc2, hidx⟩
        · exact Or.inl h
        · rcases List.mem_cons.mp hc2 with rfl | hc2t
          · exact Or.inl (by rw [← hidx]; exact hSj)
          · exact Or.inr ⟨c2, hc2t, hidx⟩
      simp only
      rw [ih S (fun c2 hc2 => hl c2 (List.mem_cons_of_mem _ hc2)) hnf hcov2]
      rfl
    · rw [if_neg hSj]
      by_cases hfull : ((mkSlots msg (totalChunksOf msg) (j :: S)).all
          (fun o => o.isSome)) = true
      · rw [if_pos hfull]
        simp only
        rw [ingest_done t0 t (fun c2 hc2 => by
          obtain ⟨i2, -, rfl⟩ := hl c2 (List.mem_cons_of_mem _ hc2)
          rfl)]
        rw [mkSlots_full_flatten msg (j :: S)
          ((mkSlots_all msg (totalChunksOf msg) (j :: S)).mp hfull)]
        rfl
      · rw [if_neg hfull]
        have hnf2 : ∃ i, i < totalChunksOf msg
            ∧ ¬ (j :: S).contains i = true := by
          have hnall : ¬ ∀ i, i < totalChunksOf msg →
              (j :: S).contains i = true := fun hcon =>
            hfull ((mkSlots_all msg (totalChunksOf msg) (j :: S)).mpr hcon)
          push_neg at hnall
          obtain ⟨i, hi, hnc⟩ := hnall
          exact ⟨i, hi, by simpa using hnc⟩
        have hcov2 : ∀ i, i < totalChunksOf msg →
            (j :: S).contains i = true ∨ ∃ c2 ∈ t, c2.index = i := by
          intro i hi
          rcases hcov i hi with h | ⟨c2, hc2, hidx⟩
          · exact Or.inl (contains_cons_of j i S h)
          · rcases List.mem_cons.mp hc2 with rfl | hc2t
            · exact Or.inl (by rw [← hidx]; exact contains_cons_self j S)
            · exact Or.inr ⟨c2, hc2t, hidx⟩
        simp only
        rw [ih (j :: S) (fun c2 hc2 => hl c2 (List.mem_cons_of_mem _ hc2))
          hnf2 hcov2]
        rfl

/-- C2 counterexample: the two fragments of the 1100-byte message carry
different ids under a clock that advances between loop iterations
(`Date.now()` per fragment), so the spec's reassembler — keyed by
`messageId` — never completes: ingesting every fragment produced by the
encoder yields zero reconstructions, not exactly one. -/
theorem c2_chunk_roundtrip_cex :
    (publishChunkedFrags (fun i => i) plainMsg).length = 2
    ∧ (ingestAll emptyRe (publishChunkedFrags (fun i => i) plainMsg)).2
        = [] := by
  have hlen : plainMsg.length = 1100 := by
    unfold plainMsg
    rw [List.length_replicate]
  have htot : totalChunksOf plainMsg = 2 := by
    unfold totalChunksOf chunkCap
    rw [hlen]
  have hfr : publishChunkedFrags (fun i => i) plainMsg =
      [⟨0, 2, 0, sliceAt plainMsg 0⟩, ⟨1, 2, 1, sliceAt plainMsg 1⟩] := by
    unfold publishChunkedFrags
    rw [htot]
    rfl
  rw [hfr]
  exact ⟨rfl, rfl⟩

/-- C2 amended: when the fragments share one messageId (the clock does
not advance during the publish loop) the spec-modelled reassembler
reconstructs any nonempty payload exactly once from any delivery
sequence that contains every fragment — any order, duplicates included —
and concatenating the fragments' `data` in index order yields the
original serialized message. -/
theorem c2_chunk_roundtrip (t0 : Nat) (msg : List Char)
    (hlen : 0 < msg.length) (l : List Chunk)
    (hin : ∀ c ∈ l, c ∈ publishChunkedFrags (fun _ => t0) msg)
    (hcov : ∀ c ∈ publishChunkedFrags (fun _ => t0) msg, c ∈ l) :
    (ingestAll emptyRe l).2 = [msg]
    ∧ ((publishChunkedFrags (fun _ => t0) msg).map Chunk.data).flatten
        = msg := by
  refine ⟨?_, chunks_flatten _ msg⟩
  have hl : ∀ c ∈ l, ∃ i, i < totalChunksOf msg
      ∧ c = ⟨i, totalChunksOf msg, t0, sliceAt msg i⟩ := by
    intro c hc
    have hmem := hin c hc
    simp only [publishChunkedFrags, List.mem_map, List.mem_range] at hmem
    obtain ⟨i, hi, rfl⟩ := hmem
    exact ⟨i, hi, rfl⟩
  have hnf : ∃ i, i < totalChunksOf msg
      ∧ ¬ ([] : List Nat).contains i = true := by
    have hn : 0 < totalChunksOf msg := by
      unfold totalChunksOf chunkCap
      omega
    exact ⟨0, hn, by simp⟩
  have hcov2 : ∀ i, i < totalChunksOf msg →
      ([] : List Nat).contains i = true ∨ ∃ c ∈ l, c.index = i := by
    intro i hi
    refine Or.inr ⟨⟨i, totalChunksOf msg, t0, sliceAt msg i⟩, ?_, rfl⟩
    apply hcov
    simp only [publishChunkedFrags, List.mem_map, List.mem_range]
    exact ⟨i, hi, rfl⟩
  have hrun := ingest_run msg t0 l [] hl hnf hcov2
  have hempty : phaseASt t0 msg (totalChunksOf msg) [] = emptyRe := by
    unfold phaseASt emptyRe
    rw [if_pos rfl]
  rw [hempty] at hrun
  rw [hrun]

theorem c2_chunk_roundtrip_witness :
    (ingestAll emptyRe
        ((publishChunkedFrags (fun _ => 7) (SL "hello")).reverse
          ++ publishChunkedFrags (fun _ => 7) (SL "hello"))).2
      = [SL "hello"] :=
  (c2_chunk_roundtrip 7 (SL "hello") (by norm_num [SL])
    ((publishChunkedFrags (fun _ => 7) (SL "hello")).reverse
      ++ publishChunkedFrags (fun _ => 7) (SL "hello"))
    (by decide) (by decide)).1
